import Mathlib

/-!
Shallow embedding of the SniperBot session-accumulation and signal-derivation
core (src/bot.py).  Numeric values are modelled exactly as rationals; the
square root inside the volatility proxy (numpy population standard deviation)
is modelled over the reals.
-/

namespace Sniperbot

/-- The five recognized timeframe labels (src/bot.py lines 47 and 84). -/
inductive Timeframe
  | M5 | M15 | M30 | H1 | H4
deriving DecidableEq, Repr

/-- Raw text is modelled as a list of characters. -/
abbrev Tok : Type := List Char

/-- Result of `extract_prices_from_text` and the stored observation:
the dictionary `{"numbers": nums, "raw": text}` (src/bot.py line 33). -/
structure Obs where
  numbers : List Tok
  raw : Tok
deriving DecidableEq, Repr

/-- A user's accumulated session, i.e. the JSON object held in
`parsed_{uid}.json`: at most one observation per timeframe label. -/
structure Session where
  m5 : Option Obs
  m15 : Option Obs
  m30 : Option Obs
  h1 : Option Obs
  h4 : Option Obs
deriving DecidableEq, Repr

/-- Dictionary lookup `parsed.get(tf)`. -/
def Session.get (s : Session) : Timeframe → Option Obs
  | .M5 => s.m5
  | .M15 => s.m15
  | .M30 => s.m30
  | .H1 => s.h1
  | .H4 => s.h4

/-- Dictionary update `data[tf_label] = parsed` (src/bot.py line 92). -/
def Session.set (s : Session) : Timeframe → Obs → Session
  | .M5, o => { s with m5 := some o }
  | .M15, o => { s with m15 := some o }
  | .M30, o => { s with m30 := some o }
  | .H1, o => { s with h1 := some o }
  | .H4, o => { s with h4 := some o }

/-- Removing a timeframe entry altogether (used to state that an
empty-numbers observation behaves as an absent one). -/
def Session.erase (s : Session) : Timeframe → Session
  | .M5 => { s with m5 := none }
  | .M15 => { s with m15 := none }
  | .M30 => { s with m30 := none }
  | .H1 => { s with h1 := none }
  | .H4 => { s with h4 := none }

/-- The empty dictionary `{}` (src/bot.py line 91). -/
def Session.empty : Session := ⟨none, none, none, none, none⟩

/-- `parsed.get(tf, {}).get("numbers")`, with both "absent timeframe" and
"present with empty list" collapsing to `[]` (both are falsy in Python). -/
def tokensAt (s : Session) (tf : Timeframe) : List Tok :=
  ((s.get tf).map Obs.numbers).getD []

/-- The priority tuple `("5M","15M","30M","1H","4H")` (src/bot.py line 47). -/
def Timeframe.priority : List Timeframe := [.M5, .M15, .M30, .H1, .H4]

/-! ### Numeric Extractor: `re.findall(r"\d{3,5}\.\d{1,4}", text)` -/

/-- Length of the maximal leading run of decimal digits. -/
def leadingDigits (s : List Char) : ℕ := (s.takeWhile Char.isDigit).length

/-- Attempt to match the regex `\d{3,5}\.\d{1,4}` at the start of `s`,
returning the length of the (greedy) match.  The greedy `\d{3,5}` with
backtracking succeeds exactly when the maximal leading digit run has length
3..5 (a longer run leaves a digit, not a dot, after the consumed digits at
every backtracking depth); the fractional part greedily takes up to 4
digits. -/
def matchLenAt (s : List Char) : Option ℕ :=
  if 3 ≤ leadingDigits s ∧ leadingDigits s ≤ 5 then
    if (s.drop (leadingDigits s)).head? = some '.' then
      if 1 ≤ leadingDigits (s.drop (leadingDigits s)).tail then
        some (leadingDigits s + 1 + min (leadingDigits (s.drop (leadingDigits s)).tail) 4)
      else none
    else none
  else none

theorem matchLenAt_pos {s : List Char} {n : ℕ} (h : matchLenAt s = some n) :
    0 < n := by
  unfold matchLenAt at h
  split at h
  · split at h
    · split at h
      · simp only [Option.some.injEq] at h
        omega
      · exact absurd h (by simp)
    · exact absurd h (by simp)
  · exact absurd h (by simp)

/-- `re.findall`, fuelled: scan left to right, emit each leftmost
non-overlapping match, resume after the end of each match.  Each step
consumes at least one character, so fuel `s.length` always suffices. -/
def findallAux : ℕ → List Char → List (List Char)
  | _, [] => []
  | 0, _ :: _ => []
  | fuel + 1, c :: cs =>
      match matchLenAt (c :: cs) with
      | some n => (c :: cs).take n :: findallAux fuel ((c :: cs).drop n)
      | none => findallAux fuel cs

/-- `re.findall(r"\d{3,5}\.\d{1,4}", text)`. -/
def findallPrice (s : List Char) : List (List Char) := findallAux s.length s

theorem findallAux_congr :
    ∀ (f f' : ℕ) (s : List Char), s.length ≤ f → s.length ≤ f' →
      findallAux f s = findallAux f' s := by
  intro f
  induction f using Nat.strong_induction_on with
  | _ f ih =>
    intro f' s hf hf'
    match f, f', s with
    | f, f', [] => cases f <;> cases f' <;> simp [findallAux]
    | 0, _, c :: cs => simp at hf
    | _ + 1, 0, c :: cs => simp at hf'
    | f + 1, g + 1, c :: cs =>
      simp only [findallAux]
      cases h : matchLenAt (c :: cs) with
      | none =>
          dsimp only
          exact ih f (by omega) g cs (by simpa using Nat.le_of_succ_le_succ hf)
            (by simpa using Nat.le_of_succ_le_succ hf')
      | some n =>
          have hn := matchLenAt_pos h
          have hlen : ((c :: cs).drop n).length ≤ f := by
            simp only [List.length_drop, List.length_cons]
            simp only [List.length_cons] at hf
            omega
          have hlen' : ((c :: cs).drop n).length ≤ g := by
            simp only [List.length_drop, List.length_cons]
            simp only [List.length_cons] at hf'
            omega
          dsimp only
          rw [ih f (by omega) g ((c :: cs).drop n) hlen hlen']

/-- Unfolding rule for `findallPrice` at a cons cell. -/
theorem findallPrice_cons (c : Char) (cs : List Char) :
    findallPrice (c :: cs) =
      match matchLenAt (c :: cs) with
      | some n => (c :: cs).take n :: findallPrice ((c :: cs).drop n)
      | none => findallPrice cs := by
  unfold findallPrice
  simp only [List.length_cons, findallAux]
  cases h : matchLenAt (c :: cs) with
  | none => exact findallAux_congr _ _ cs (by simp) le_rfl
  | some n =>
      have hn := matchLenAt_pos h
      refine congrArg _ (findallAux_congr _ _ _ ?_ le_rfl)
      simp only [List.length_drop, List.length_cons]
      omega

/-- `extract_prices_from_text` (src/bot.py lines 30-33). -/
def extract_prices_from_text (text : Tok) : Obs :=
  { numbers := findallPrice text, raw := text }

/-- Spec-side pattern check: the whole token consists of 3-5 decimal digits,
a decimal point, and 1-4 decimal digits. -/
def matchesPrice (t : Tok) : Bool :=
  decide (3 ≤ leadingDigits t) &&
  decide (leadingDigits t ≤ 5) &&
  decide ((t.drop (leadingDigits t)).head? = some '.') &&
  !(t.drop (leadingDigits t)).tail.isEmpty &&
  (t.drop (leadingDigits t)).tail.all Char.isDigit &&
  decide ((t.drop (leadingDigits t)).tail.length ≤ 4)

/-! ### Parsing tokens as numbers: Python `float(token)`

The parse is split into a purely structural phase (`pyParse?`, which reads
the sign and the decimal digit strings) and the evaluation of the resulting
parts as an exact rational (`ratOfParts`). -/

/-- Numeric value of one decimal digit character. -/
def digitVal (c : Char) : ℕ := c.toNat - ('0').toNat

/-- Value of a digit string read in base 10 (the empty string counts as 0,
as in `float("123.")` and `float(".5")`). -/
def digitsVal (ds : List Char) : ℕ := ds.foldl (fun a c => 10 * a + digitVal c) 0

/-- The digit parts of a decimal literal: sign, integer-part value,
fractional-part value and fractional-digit count. -/
structure FloatParts where
  neg : Bool
  ip : ℕ
  fp : ℕ
  fplen : ℕ
deriving DecidableEq, Repr

/-- The unsigned part of a decimal literal: digits, optionally followed by a
dot and more digits, with at least one digit overall. -/
def partsCore (u : Tok) : Option FloatParts :=
  let ip := u.takeWhile Char.isDigit
  match u.drop ip.length with
  | [] => if ip.isEmpty then none else some ⟨false, digitsVal ip, 0, 0⟩
  | '.' :: fr =>
      let fp := fr.takeWhile Char.isDigit
      if (fr.drop fp.length).isEmpty then
        if ip.isEmpty && fp.isEmpty then none
        else some ⟨false, digitsVal ip, digitsVal fp, fp.length⟩
      else none
  | _ => none

/-- Structural phase of Python `float(token)` on plain decimal literals:
optional sign, integer digits, optional fractional part; `none` models a
`ValueError`.  Exponents and special forms are not modelled: every token the
pipeline feeds to `float` was produced by the price regex and is a plain
unsigned decimal. -/
def pyParse? (t : Tok) : Option FloatParts :=
  match t with
  | '-' :: r => (partsCore r).map (fun p => { p with neg := true })
  | '+' :: r => partsCore r
  | r => partsCore r

/-- Exact rational value of parsed decimal parts. -/
def ratOfParts (p : FloatParts) : ℚ :=
  (if p.neg then -1 else 1) * ((p.ip : ℚ) + (p.fp : ℚ) / 10 ^ p.fplen)

/-- Python `float(token)`, modelled exactly over ℚ. -/
def pyFloat? (t : Tok) : Option ℚ := (pyParse? t).map ratOfParts

/-! ### Rounding: Python `round(x, n)` (round half to even) -/

/-- Round to the nearest integer, ties going to the even neighbour
(Python's rounding mode). -/
def rne {K : Type} [LinearOrderedField K] [FloorRing K] (x : K) : ℤ :=
  if x - ⌊x⌋ < 1 / 2 then ⌊x⌋
  else if 1 / 2 < x - ⌊x⌋ then ⌊x⌋ + 1
  else if ⌊x⌋ % 2 = 0 then ⌊x⌋ else ⌊x⌋ + 1

/-- Python `round(x, n)`. -/
def roundTo {K : Type} [LinearOrderedField K] [FloorRing K] (n : ℕ) (x : K) : K :=
  ((rne (x * 10 ^ n) : ℤ) : K) / 10 ^ n

/-! ### Risk parameters: `compute_sl_tp_size` (src/bot.py lines 35-43) -/

inductive Side
  | LONG | SHORT
deriving DecidableEq, Repr

/-- Exceptions that the `try` in `analyze_screenshots` can catch:
`float(...)` raising `ValueError`, and a division by zero. -/
inductive PyErr
  | valueError (t : Tok)
  | zeroDivision
deriving DecidableEq, Repr

/-- The dictionary returned by `compute_sl_tp_size`. -/
structure TradeNums (K : Type) where
  SL : K
  TP : K
  lots : K
  RR : K
deriving DecidableEq, Repr

/-- `compute_sl_tp_size(entry_price, atr, side, balance)` (src/bot.py lines
35-43), with the constants `ATR_SL_K = 1.5`, risk `0.01` and the contract
multiplier `100` written as rationals.  The division raises
`ZeroDivisionError` exactly when `sl_distance * 100` is zero. -/
def compute_sl_tp_size {K : Type} [LinearOrderedField K] [FloorRing K]
    [DecidableEq K] (entry_price atr : K) (side : Side) (balance : K) :
    Except PyErr (TradeNums K) :=
  let sl_distance := (3 / 2 : K) * atr
  let tp_distance := 4 * sl_distance
  let sl := if side = .LONG then entry_price - sl_distance else entry_price + sl_distance
  let tp := if side = .LONG then entry_price + tp_distance else entry_price - tp_distance
  let risk_usd := balance * (1 / 100)
  if sl_distance * 100 = 0 then .error .zeroDivision
  else .ok { SL := roundTo 3 sl, TP := roundTo 3 tp,
             lots := max (1 / 100) (roundTo 2 (risk_usd / (sl_distance * 100))),
             RR := 4 }

/-! ### Signal Engine: `analyze_screenshots` (src/bot.py lines 45-68) -/

/-- The `for tf in (...tuple...): v = parsed.get(tf, {}).get("numbers");
if v: price = float(v[-1]); break / else: no price found` scan (src/bot.py
lines 47-52), reduced to the token it selects. -/
def entryScan (s : Session) : List Timeframe → Option Tok
  | [] => none
  | tf :: rest =>
      let v := tokensAt s tf
      if v.isEmpty then entryScan s rest else v.getLast?

/-- The token whose `float` becomes the entry price. -/
def selectEntryTok (s : Session) : Option Tok := entryScan s Timeframe.priority

/-- `all_nums`: every token of every stored observation, with tokens whose
`float` raises silently discarded (src/bot.py lines 53-57).  The dictionary
is traversed in a fixed timeframe order; only the multiset of values matters
downstream. -/
def collectNums (s : Session) : List ℚ :=
  ((Timeframe.priority.map (tokensAt s)).flatten).filterMap pyFloat?

/-- `np.mean`, exactly. -/
def meanQ (xs : List ℚ) : ℚ := xs.sum / xs.length

/-- The population variance inside `np.std`, exactly. -/
def pvarQ (xs : List ℚ) : ℚ := ((xs.map (fun x => (x - meanQ xs) ^ 2)).sum) / xs.length

/-- `np.std`: the population standard deviation (square root of the mean
squared deviation). -/
noncomputable def npStd (xs : List ℚ) : ℝ := Real.sqrt ((pvarQ xs : ℚ) : ℝ)

/-- `atr = float(np.std(all_nums)) if len(all_nums) >= 2 else 1.0`
(src/bot.py line 58). -/
noncomputable def atrOf (s : Session) : ℝ :=
  if 2 ≤ (collectNums s).length then npStd (collectNums s) else 1

/-- `list(map(float, tokens))`: left to right, raising at the first token
whose `float` fails. -/
def mapFloat : List Tok → Except PyErr (List ℚ)
  | [] => .ok []
  | t :: ts =>
      match pyFloat? t with
      | none => .error (.valueError t)
      | some q => (mapFloat ts).map (q :: ·)

/-- Python `xs[-n:]`. -/
def lastN (n : ℕ) (xs : List Tok) : List Tok := xs.drop (xs.length - n)

/-- The directional-bias block (src/bot.py lines 59-64): if the 15M list is
non-empty, `ema_like = np.mean(map(float, m15[-5:]))` and the side is LONG
exactly when `float(m15[-1]) > ema_like`; otherwise LONG. -/
def biasOf (s : Session) : Except PyErr Side :=
  let m15 := tokensAt s .M15
  if m15.isEmpty then .ok .LONG
  else
    match mapFloat (lastN 5 m15) with
    | .error e => .error e
    | .ok vals =>
        let ema_like := meanQ vals
        match pyFloat? ((m15.getLast?).getD []) with
        | none => .error (.valueError ((m15.getLast?).getD []))
        | some lastv => .ok (if ema_like < lastv then .LONG else .SHORT)

/-- The failure outcomes of `analyze_screenshots`: the explicit
`{"error": "No price found."}` and the generic `except` handler
(src/bot.py lines 52 and 67-68). -/
inductive AnalysisError
  | noPriceFound
  | internal (e : PyErr)
deriving DecidableEq, Repr

/-- The success dictionary `{"side": side, "entry": price, **trade}`
(src/bot.py line 66). -/
structure Rec where
  side : Side
  entry : ℝ
  SL : ℝ
  TP : ℝ
  lots : ℝ
  RR : ℝ

/-- `analyze_screenshots(parsed)` (src/bot.py lines 45-68).  The entry token
is selected and parsed first; `atr` is computed next (its inner `try`
swallows parse failures, so it never raises); the bias block may raise on
`float`; `compute_sl_tp_size` may raise `ZeroDivisionError`; every raise is
caught and surfaced as a generic error. -/
noncomputable def analyze_screenshots (s : Session) : Except AnalysisError Rec :=
  match selectEntryTok s with
  | none => .error .noPriceFound
  | some tok =>
      match pyFloat? tok with
      | none => .error (.internal (.valueError tok))
      | some price =>
          match biasOf s with
          | .error e => .error (.internal e)
          | .ok side =>
              match compute_sl_tp_size (K := ℝ) ((price : ℚ) : ℝ) (atrOf s) side 10000 with
              | .error e => .error (.internal e)
              | .ok t => .ok ⟨side, ((price : ℚ) : ℝ), t.SL, t.TP, t.lots, t.RR⟩

/-! ### Session Store and Controller (src/bot.py lines 70-109) -/

/-- The store: one optional JSON file `parsed_{uid}.json` per user id. -/
def Store : Type := ℕ → Option Session

/-- The store mutation in `handle_photo` (src/bot.py lines 87-93): read the
user's file if it exists (else `{}`), overwrite the entry at the caption's
timeframe, write back. -/
def put (st : Store) (u : ℕ) (tf : Timeframe) (o : Obs) : Store :=
  fun v => if v = u then some (((st u).getD Session.empty).set tf o) else st v

/-- `handle_photo` for an upload with a recognized timeframe caption, from
the OCR text on: parse the text and store the observation
(src/bot.py lines 82-93). -/
def handle_photo (st : Store) (u : ℕ) (tf : Timeframe) (text : Tok) : Store :=
  put st u tf (extract_prices_from_text text)

/-- The user-visible outcome of `analyze_cmd`. -/
inductive Reply
  | noData
  | analysisError (e : AnalysisError)
  | recommendation (r : Rec)

/-- `analyze_cmd` (src/bot.py lines 96-109): no file means the no-data
message; an `"error"` result is reported with the store untouched; a
successful recommendation is emitted and the file unlinked. -/
noncomputable def analyze_cmd (st : Store) (u : ℕ) : Store × Reply :=
  match st u with
  | none => (st, .noData)
  | some parsed =>
      match analyze_screenshots parsed with
      | .error e => (st, .analysisError e)
      | .ok r => (fun v => if v = u then none else st v, .recommendation r)

/-- Every token stored for the user parses as a number.  This is an
invariant of sessions produced by the pipeline: stored tokens come from the
price regex. -/
def Session.wf (s : Session) : Bool :=
  Timeframe.priority.all (fun tf => (tokensAt s tf).all (fun t => (pyFloat? t).isSome))

/-- `get(user)`: the accumulated mapping for a user, empty if none exists. -/
def getSession (st : Store) (u : ℕ) : Session := (st u).getD Session.empty

/-! ### Sanity checks on concrete inputs -/

example : pyParse? (("100.5000").data) = some ⟨false, 100, 5000, 4⟩ := by decide
example : pyParse? (("abc").data) = none := by decide
example : findallPrice (("ab 123.45 cd 99.9 0.5 1234.5678").data) =
    [("123.45").data, ("1234.5678").data] := by decide
example : findallPrice (("123456.7").data) = [("23456.7").data] := by decide
example : findallPrice (("123.45678").data) = [("123.4567").data] := by decide
example : findallPrice ([]) = [] := by decide
example : matchesPrice (("123.45").data) = true := by decide
example : matchesPrice (("12.45").data) = false := by decide

/-! ### C7: last write wins in the session store -/

/-- C7: `put(U,L,obs1)` then `put(U,L,obs2)` then `get(U)` has exactly `obs2`
at `L`, regardless of prior store state, and every other label of `get(U)`
is unaffected by the two puts. -/
theorem put_last_write_wins (st : Store) (u : ℕ) (L : Timeframe) (o1 o2 : Obs) :
    (getSession (put (put st u L o1) u L o2) u).get L = some o2 ∧
    (∀ L' : Timeframe, L' ≠ L →
      (getSession (put (put st u L o1) u L o2) u).get L' = (getSession st u).get L') := by
  constructor
  · simp only [getSession, put, if_pos rfl, Option.getD_some]
    cases L <;> simp [Session.set, Session.get]
  · intro L' hne
    simp only [getSession, put, if_pos rfl, Option.getD_some]
    cases L <;> cases L' <;>
      simp_all [Session.set, Session.get]

/-- Witness for C7 at a concrete store, user, labels and observations. -/
theorem put_last_write_wins_witness :
    (Timeframe.M15 ≠ Timeframe.M5) ∧
    (getSession (put (put (fun _ => none) 0 .M5 ⟨[], []⟩) 0 .M5
        ⟨[("999.9").data], []⟩) 0).get .M5 = some ⟨[("999.9").data], []⟩ ∧
    (getSession (put (put (fun _ => none) 0 .M5 ⟨[], []⟩) 0 .M5
        ⟨[("999.9").data], []⟩) 0).get .M15 = (getSession (fun _ => none) 0).get .M15 :=
  ⟨by decide,
   (put_last_write_wins (fun _ => none) 0 .M5 ⟨[], []⟩ ⟨[("999.9").data], []⟩).1,
   (put_last_write_wins (fun _ => none) 0 .M5 ⟨[], []⟩ ⟨[("999.9").data], []⟩).2 .M15
     (by decide)⟩

/-! ### C10: an upload whose text has no price tokens still stores an
(empty-numbers) observation, and entry selection skips it as if absent -/

/-- C10: an upload with a valid timeframe caption whose text yields zero
price tokens stores `{"numbers": [], "raw": text}` at that timeframe,
overwriting any previous observation for the (user, timeframe) pair; and
entry-price selection treats an empty-numbers observation at a timeframe
exactly like an absent timeframe. -/
theorem emptyObs_stored_and_skipped (st : Store) (u : ℕ) (tf : Timeframe) (text : Tok)
    (h : (extract_prices_from_text text).numbers = []) :
    (getSession (handle_photo st u tf text) u).get tf = some ⟨[], text⟩ ∧
    (∀ (s : Session) (r : Tok),
      selectEntryTok (s.set tf ⟨[], r⟩) = selectEntryTok (s.erase tf)) := by
  constructor
  · have hobs : extract_prices_from_text text = ⟨[], text⟩ := by
      have := h
      unfold extract_prices_from_text at *
      simp_all
    unfold handle_photo
    rw [hobs]
    simp only [getSession, put, if_pos rfl, Option.getD_some]
    cases tf <;> simp [Session.set, Session.get]
  · intro s r
    cases tf <;>
      simp [selectEntryTok, entryScan, tokensAt, Session.set, Session.get,
        Session.erase, Timeframe.priority]

/-- Witness for C10 at a concrete priceless text and timeframe. -/
theorem emptyObs_stored_and_skipped_witness :
    (extract_prices_from_text (("no prices here").data)).numbers = [] ∧
    ((getSession (handle_photo (fun _ => none) 3 .M30 (("no prices here").data)) 3).get .M30 =
        some ⟨[], ("no prices here").data⟩ ∧
      (∀ (s : Session) (r : Tok),
        selectEntryTok (s.set .M30 ⟨[], r⟩) = selectEntryTok (s.erase .M30))) :=
  ⟨by decide, emptyObs_stored_and_skipped (fun _ => none) 3 .M30 (("no prices here").data)
    (by decide)⟩

/-! ### Casting lemmas: the risk arithmetic at rational inputs -/

theorem rne_ratCast (q : ℚ) : rne ((q : ℝ)) = rne q := by
  unfold rne
  rw [Rat.floor_cast]
  have hr : ((q : ℝ) - ((⌊q⌋ : ℤ) : ℝ)) = (((q - ⌊q⌋ : ℚ)) : ℝ) := by push_cast; ring
  have h2c : ((1 : ℝ) / 2) = (((1 / 2 : ℚ)) : ℝ) := by norm_num
  have hlt : ((((q - ⌊q⌋ : ℚ))) : ℝ) < 1 / 2 ↔ (q - ⌊q⌋ : ℚ) < 1 / 2 := by
    rw [h2c]; exact Rat.cast_lt
  have hgt : (1 : ℝ) / 2 < ((((q - ⌊q⌋ : ℚ))) : ℝ) ↔ (1 / 2 : ℚ) < q - ⌊q⌋ := by
    rw [h2c]; exact Rat.cast_lt
  by_cases h1 : (q - ⌊q⌋ : ℚ) < 1 / 2
  · rw [if_pos (by rw [hr]; exact hlt.mpr h1), if_pos h1]
  · rw [if_neg (by rw [hr]; exact fun hc => h1 (hlt.mp hc)), if_neg h1]
    by_cases h2 : (1 / 2 : ℚ) < q - ⌊q⌋
    · rw [if_pos (by rw [hr]; exact hgt.mpr h2), if_pos h2]
    · rw [if_neg (by rw [hr]; exact fun hc => h2 (hgt.mp hc)), if_neg h2]

theorem roundTo_ratCast (n : ℕ) (q : ℚ) :
    roundTo n ((q : ℝ)) = ((roundTo n q : ℚ) : ℝ) := by
  unfold roundTo
  rw [show ((q : ℝ) * 10 ^ n) = (((q * 10 ^ n : ℚ)) : ℝ) by push_cast; ring, rne_ratCast]
  push_cast
  ring

/-- `compute_sl_tp_size` over the reals agrees with its exact rational
computation at rational inputs. -/
theorem compute_sl_tp_size_ratCast (e a b : ℚ) (side : Side) :
    compute_sl_tp_size (K := ℝ) ((e : ℚ) : ℝ) ((a : ℚ) : ℝ) side ((b : ℚ) : ℝ) =
      (compute_sl_tp_size (K := ℚ) e a side b).map
        (fun t => ⟨((t.SL : ℚ) : ℝ), ((t.TP : ℚ) : ℝ), ((t.lots : ℚ) : ℝ), ((t.RR : ℚ) : ℝ)⟩) := by
  unfold compute_sl_tp_size
  have hr : ((3 : ℝ) / 2 * ((a : ℚ) : ℝ) * 100) = (((3 / 2 * a * 100 : ℚ)) : ℝ) := by
    push_cast; ring
  by_cases h : (3 / 2 : ℚ) * a * 100 = 0
  · rw [if_pos (by rw [hr]; exact_mod_cast h), if_pos h]
    rfl
  · have hne : ((3 : ℝ) / 2 * ((a : ℚ) : ℝ) * 100) ≠ 0 := by
      rw [hr]; exact_mod_cast h
    rw [if_neg hne, if_neg h]
    simp only [Except.map]
    refine congrArg Except.ok ?_
    cases side <;>
      simp only [reduceIte, reduceCtorEq, TradeNums.mk.injEq] <;>
      refine ⟨?_, ?_, ?_, by norm_num⟩
    · rw [← roundTo_ratCast]; congr 1; push_cast; ring
    · rw [← roundTo_ratCast]; congr 1; push_cast; ring
    · rw [Rat.cast_max]
      congr 1
      · norm_num
      · rw [← roundTo_ratCast]; congr 1; push_cast; ring
    · rw [← roundTo_ratCast]; congr 1; push_cast; ring
    · rw [← roundTo_ratCast]; congr 1; push_cast; ring
    · rw [Rat.cast_max]
      congr 1
      · norm_num
      · rw [← roundTo_ratCast]; congr 1; push_cast; ring

/-! ### C3: the risk arithmetic -/

/-- C3: for a non-zero volatility proxy `v`, the stop-loss distance is
`1.5 * v`, the take-profit distance is `4 * (1.5 * v)` (so `6 * v`), the
LONG stop-loss/take-profit are `e - 1.5 * v` and `e + 6 * v` (3-decimal
rounded; signs inverted for SHORT), the position size is
`max(0.01, round(10000 * 0.01 / (1.5 * v * 100), 2))` under the default
balance 10000, and the reported risk-reward ratio is exactly 4. -/
theorem compute_sl_tp_size_spec (e v : ℚ) (side : Side) (hv : v ≠ 0) :
    compute_sl_tp_size e v side 10000 = .ok
      { SL := roundTo 3 (if side = .LONG then e - 3 / 2 * v else e + 3 / 2 * v),
        TP := roundTo 3 (if side = .LONG then e + 6 * v else e - 6 * v),
        lots := max (1 / 100) (roundTo 2 (10000 * (1 / 100) / (3 / 2 * v * 100))),
        RR := 4 } := by
  have h0 : (3 / 2 : ℚ) * v * 100 ≠ 0 := by
    intro hc
    apply hv
    have := mul_ne_zero (mul_ne_zero (by norm_num : (3 / 2 : ℚ) ≠ 0) hv)
      (by norm_num : (100 : ℚ) ≠ 0)
    exact absurd hc this
  unfold compute_sl_tp_size
  rw [if_neg h0, show (4 : ℚ) * (3 / 2 * v) = 6 * v from by ring]

/-- Witness for C3: the spec's concrete risk-math scenario
entry 2000, proxy 1, LONG gives SL 1998.5, TP 2006, size 0.67, ratio 4. -/
theorem compute_sl_tp_size_spec_witness :
    ((1 : ℚ) ≠ 0) ∧
    compute_sl_tp_size (2000 : ℚ) 1 .LONG 10000 =
      .ok { SL := (1998.5 : ℚ), TP := 2006, lots := (0.67 : ℚ), RR := 4 } := by
  refine ⟨by norm_num, (compute_sl_tp_size_spec 2000 1 .LONG (by norm_num)).trans ?_⟩
  norm_num [roundTo, rne, max_def]

/-! ### Inversion and evaluation of `analyze_screenshots` -/

/-- A successful analysis decomposes into a selected token, its parse, a
bias and a risk computation. -/
theorem analyze_ok_inv {s : Session} {r : Rec} (h : analyze_screenshots s = .ok r) :
    ∃ tok q side t, selectEntryTok s = some tok ∧ pyFloat? tok = some q ∧
      biasOf s = .ok side ∧
      compute_sl_tp_size (K := ℝ) ((q : ℚ) : ℝ) (atrOf s) side 10000 = Except.ok t ∧
      r = ⟨side, ((q : ℚ) : ℝ), t.SL, t.TP, t.lots, t.RR⟩ := by
  unfold analyze_screenshots at h
  cases hsel : selectEntryTok s with
  | none => rw [hsel] at h; simp at h
  | some tok =>
    rw [hsel] at h
    dsimp only at h
    cases hq : pyFloat? tok with
    | none => rw [hq] at h; simp at h
    | some q =>
      rw [hq] at h
      dsimp only at h
      cases hb : biasOf s with
      | error e => rw [hb] at h; simp at h
      | ok side =>
        rw [hb] at h
        dsimp only at h
        cases hc : compute_sl_tp_size (K := ℝ) ((q : ℚ) : ℝ) (atrOf s) side 10000 with
        | error e => rw [hc] at h; simp at h
        | ok t =>
          rw [hc] at h
          dsimp only at h
          refine ⟨tok, q, side, t, ?_, ?_, ?_, ?_, by simpa using h.symm⟩ <;>
            first
              | rfl
              | exact hsel
              | exact hq
              | exact hb
              | exact hc

/-- Evaluate `analyze_screenshots` when the selected token, its value, the
volatility proxy (a rational) and the bias are known. -/
theorem analyze_eval (s : Session) (tok : Tok) (q a : ℚ) (side : Side)
    (h1 : selectEntryTok s = some tok)
    (h2 : pyFloat? tok = some q)
    (h3 : atrOf s = ((a : ℚ) : ℝ))
    (h4 : biasOf s = .ok side)
    (h5 : a ≠ 0) :
    analyze_screenshots s = .ok
      ⟨side, ((q : ℚ) : ℝ),
        ((roundTo 3 (if side = .LONG then q - 3 / 2 * a else q + 3 / 2 * a) : ℚ) : ℝ),
        ((roundTo 3 (if side = .LONG then q + 6 * a else q - 6 * a) : ℚ) : ℝ),
        ((max (1 / 100) (roundTo 2 (10000 * (1 / 100) / (3 / 2 * a * 100))) : ℚ) : ℝ),
        ((4 : ℚ) : ℝ)⟩ := by
  unfold analyze_screenshots
  rw [h1]
  dsimp only
  rw [h2]
  dsimp only
  rw [h4]
  dsimp only
  rw [h3, show ((10000 : ℝ)) = (((10000 : ℚ)) : ℝ) by norm_num,
    compute_sl_tp_size_ratCast, compute_sl_tp_size_spec q a side h5]
  rfl

/-- A session whose collected values are a single rational has the default
volatility proxy 1. -/
theorem atrOf_single (s : Session) (q : ℚ) (h : collectNums s = [q]) :
    atrOf s = ((1 : ℚ) : ℝ) := by
  unfold atrOf
  rw [h]
  norm_num

/-- Evaluate the whole engine on a session holding a single 5M observation
with one parseable token. -/
theorem analyze_single5M (tok raw : Tok) (q : ℚ) (hp : pyFloat? tok = some q) :
    analyze_screenshots ⟨some ⟨[tok], raw⟩, none, none, none, none⟩ =
      .ok ⟨.LONG, ((q : ℚ) : ℝ),
        ((roundTo 3 (q - 3 / 2 * 1) : ℚ) : ℝ),
        ((roundTo 3 (q + 6 * 1) : ℚ) : ℝ),
        ((max (1 / 100) (roundTo 2 (10000 * (1 / 100) / (3 / 2 * 1 * 100))) : ℚ) : ℝ),
        ((4 : ℚ) : ℝ)⟩ := by
  have h1 : selectEntryTok ⟨some ⟨[tok], raw⟩, none, none, none, none⟩ = some tok := by
    simp [selectEntryTok, entryScan, Timeframe.priority, tokensAt, Session.get]
  have hcol : collectNums ⟨some ⟨[tok], raw⟩, none, none, none, none⟩ = [q] := by
    simp [collectNums, Timeframe.priority, tokensAt, Session.get, hp]
  have h4 : biasOf ⟨some ⟨[tok], raw⟩, none, none, none, none⟩ = .ok .LONG := by
    simp [biasOf, tokensAt, Session.get]
  have h := analyze_eval _ tok q 1 .LONG h1 hp
    (atrOf_single _ q hcol) h4 (by norm_num)
  simpa only [reduceIte] using h

/-! ### Structural lemmas about the engine's stages -/

theorem getLast?_some_mem {α : Type} {l : List α} {a : α} (h : l.getLast? = some a) :
    a ∈ l := by
  have hx : a ∈ l.getLast? := by simp [Option.mem_def, h]
  obtain ⟨hne, heq⟩ := List.mem_getLast?_eq_getLast hx
  rw [heq]
  exact List.getLast_mem hne

theorem wf_tokensAt {s : Session} (hwf : s.wf = true) (tf : Timeframe) :
    ∀ t ∈ tokensAt s tf, (pyFloat? t).isSome = true := by
  intro t ht
  have htf : tf ∈ Timeframe.priority := by cases tf <;> simp [Timeframe.priority]
  exact List.all_eq_true.mp (List.all_eq_true.mp hwf tf htf) t ht

theorem entryScan_none {s : Session} : ∀ {l : List Timeframe}, entryScan s l = none →
    ∀ tf ∈ l, tokensAt s tf = [] := by
  intro l
  induction l with
  | nil => intro _ tf htf; simp at htf
  | cons tf rest ih =>
    intro h tf' htf'
    unfold entryScan at h
    by_cases he : (tokensAt s tf).isEmpty
    · rw [if_pos he] at h
      rcases List.mem_cons.mp htf' with rfl | hm
      · exact List.isEmpty_iff.mp he
      · exact ih h tf' hm
    · rw [if_neg he] at h
      have := List.getLast?_eq_none_iff.mp h
      exact absurd (List.isEmpty_iff.mpr this) he

theorem entryScan_some {s : Session} : ∀ {l : List Timeframe} {tok : Tok},
    entryScan s l = some tok → ∃ tf ∈ l, tok ∈ tokensAt s tf := by
  intro l
  induction l with
  | nil => intro tok h; simp [entryScan] at h
  | cons tf rest ih =>
    intro tok h
    unfold entryScan at h
    by_cases he : (tokensAt s tf).isEmpty
    · rw [if_pos he] at h
      obtain ⟨tf', h1, h2⟩ := ih h
      exact ⟨tf', List.mem_cons_of_mem _ h1, h2⟩
    · rw [if_neg he] at h
      exact ⟨tf, List.mem_cons_self _ _, getLast?_some_mem h⟩

theorem collectNums_eq_nil_of_all_empty {s : Session} (h : ∀ tf, tokensAt s tf = []) :
    collectNums s = [] := by
  unfold collectNums Timeframe.priority
  simp [h]

theorem mapFloat_ok {ts : List Tok} (h : ∀ t ∈ ts, (pyFloat? t).isSome = true) :
    mapFloat ts = .ok (ts.filterMap pyFloat?) := by
  induction ts with
  | nil => rfl
  | cons t ts ih =>
    unfold mapFloat
    obtain ⟨q, hq⟩ := Option.isSome_iff_exists.mp (h t (by simp))
    rw [hq]
    dsimp only
    rw [ih (fun t' ht' => h t' (by simp [ht']))]
    simp [List.filterMap_cons, hq, Except.map]

/-- Spec-side directional bias: if the 15-minute timeframe has tokens, the
reference is the arithmetic mean of (the parses of) its last up-to-5 tokens
and the bias is LONG exactly when the last token's value exceeds it;
with no tokens the bias defaults to LONG. -/
def specBias (s : Session) : Side :=
  let ts := tokensAt s .M15
  if ts.isEmpty then .LONG
  else
    let vals := (lastN 5 ts).filterMap pyFloat?
    let reference := meanQ vals
    let lastVal := (pyFloat? ((ts.getLast?).getD [])).getD 0
    if reference < lastVal then .LONG else .SHORT

/-- On a well-formed session the bias block never raises and computes the
spec-side bias. -/
theorem biasOf_of_wf {s : Session} (hwf : s.wf = true) :
    biasOf s = .ok (specBias s) := by
  unfold biasOf specBias
  by_cases he : (tokensAt s .M15).isEmpty
  · rw [if_pos he, if_pos he]
  · rw [if_neg he, if_neg he]
    have hall : ∀ t ∈ lastN 5 (tokensAt s .M15), (pyFloat? t).isSome = true := by
      intro t ht
      exact wf_tokensAt hwf .M15 t (List.drop_subset _ _ ht)
    rw [mapFloat_ok hall]
    dsimp only
    have hne : tokensAt s .M15 ≠ [] := fun hc => he (List.isEmpty_iff.mpr hc)
    obtain ⟨lastTok, hlast⟩ : ∃ a, (tokensAt s .M15).getLast? = some a := by
      cases hgl : (tokensAt s .M15).getLast? with
      | none => exact absurd (List.getLast?_eq_none_iff.mp hgl) hne
      | some a => exact ⟨a, rfl⟩
    rw [hlast]
    dsimp only [Option.getD_some]
    obtain ⟨lv, hlv⟩ :=
      Option.isSome_iff_exists.mp (wf_tokensAt hwf .M15 lastTok (getLast?_some_mem hlast))
    rw [hlv]
    dsimp only [Option.getD_some]

/-! ### C4 (corrected): rounding of the recommendation fields -/

/-- A `max(0.01, round(y, 2))` value is always a 2-decimal value. -/
theorem max_lots_den (y : ℝ) :
    ∃ k : ℤ, max (1 / 100) (roundTo 2 y) = (k : ℝ) / 10 ^ 2 := by
  refine ⟨max 1 (rne (y * 10 ^ 2)), ?_⟩
  rw [Int.cast_max, roundTo,
    show ((10 : ℝ) ^ 2) = 100 by norm_num,
    show ((1 : ℝ)) / 100 = ((1 : ℤ) : ℝ) / 100 by norm_num,
    max_div_div_right (by norm_num : (0 : ℝ) ≤ 100)]

/-- C4 (amended): in every successful recommendation the stop-loss and the
take-profit are 3-decimal values and the position size is a 2-decimal value;
the entry price is reported as parsed, without rounding. -/
theorem rec_fields_rounded (s : Session) (r : Rec) (h : analyze_screenshots s = .ok r) :
    (∃ k : ℤ, r.SL = (k : ℝ) / 10 ^ 3) ∧ (∃ k : ℤ, r.TP = (k : ℝ) / 10 ^ 3) ∧
    (∃ k : ℤ, r.lots = (k : ℝ) / 10 ^ 2) := by
  obtain ⟨tok, q, side, t, hsel, hq, hb, hc, hr⟩ := analyze_ok_inv h
  subst hr
  unfold compute_sl_tp_size at hc
  dsimp only at hc
  by_cases hz : (3 : ℝ) / 2 * atrOf s * 100 = 0
  · rw [if_pos hz] at hc
    exact absurd hc (by simp)
  · rw [if_neg hz] at hc
    simp only [Except.ok.injEq] at hc
    subst hc
    exact ⟨⟨_, rfl⟩, ⟨_, rfl⟩, max_lots_den _⟩

/-- Witness for the amended C4 on a concrete session. -/
theorem rec_fields_rounded_witness :
    analyze_screenshots ⟨some ⟨[("500.25").data], ("500.25").data⟩, none, none, none, none⟩ =
      .ok ⟨.LONG, ((500.25 : ℚ) : ℝ), ((498.75 : ℚ) : ℝ), ((506.25 : ℚ) : ℝ),
        ((0.67 : ℚ) : ℝ), ((4 : ℚ) : ℝ)⟩ ∧
    ((∃ k : ℤ, ((498.75 : ℚ) : ℝ) = (k : ℝ) / 10 ^ 3) ∧
      (∃ k : ℤ, ((506.25 : ℚ) : ℝ) = (k : ℝ) / 10 ^ 3) ∧
      (∃ k : ℤ, ((0.67 : ℚ) : ℝ) = (k : ℝ) / 10 ^ 2)) := by
  have hp : pyFloat? (("500.25").data) = some (500.25 : ℚ) := by
    rw [show pyFloat? (("500.25").data) = (pyParse? (("500.25").data)).map ratOfParts from rfl,
      show pyParse? (("500.25").data) = some ⟨false, 500, 25, 2⟩ from by decide]
    norm_num [ratOfParts]
  have h := analyze_single5M (("500.25").data) (("500.25").data) (500.25 : ℚ) hp
  have h' : analyze_screenshots
      ⟨some ⟨[("500.25").data], ("500.25").data⟩, none, none, none, none⟩ =
      .ok ⟨.LONG, ((500.25 : ℚ) : ℝ), ((498.75 : ℚ) : ℝ), ((506.25 : ℚ) : ℝ),
        ((0.67 : ℚ) : ℝ), ((4 : ℚ) : ℝ)⟩ := by
    rw [h]
    norm_num [roundTo, rne, max_def]
  exact ⟨h', rec_fields_rounded _ _ h'⟩

/-- C4 counterexample: a successful recommendation whose entry price is not
a 3-decimal value (the code never rounds the entry). -/
theorem entry_not_rounded_counterexample :
    analyze_screenshots ⟨some ⟨[("100.1234").data], ("100.1234").data⟩,
        none, none, none, none⟩ =
      .ok ⟨.LONG, ((100.1234 : ℚ) : ℝ), ((98.623 : ℚ) : ℝ), ((106.123 : ℚ) : ℝ),
        ((0.67 : ℚ) : ℝ), ((4 : ℚ) : ℝ)⟩ ∧
    roundTo 3 (((100.1234 : ℚ)) : ℝ) ≠ ((100.1234 : ℚ) : ℝ) := by
  constructor
  · have hp : pyFloat? (("100.1234").data) = some (100.1234 : ℚ) := by
      rw [show pyFloat? (("100.1234").data) = (pyParse? (("100.1234").data)).map ratOfParts
          from rfl,
        show pyParse? (("100.1234").data) = some ⟨false, 100, 1234, 4⟩ from by decide]
      norm_num [ratOfParts]
    have h := analyze_single5M (("100.1234").data) (("100.1234").data) (100.1234 : ℚ) hp
    rw [h]
    norm_num [roundTo, rne, max_def]
  · rw [roundTo_ratCast, Ne, Rat.cast_inj]
    norm_num [roundTo, rne]

/-! ### C6: directional bias -/

/-- C6: on a well-formed session every successful recommendation's side is
the spec-side bias (LONG exactly when the last 15M token's value exceeds the
arithmetic mean of the last up-to-5 15M tokens' values), and with no 15M
tokens the bias block yields LONG. -/
theorem rec_side_is_specBias (s : Session) (hwf : s.wf = true) :
    (∀ r : Rec, analyze_screenshots s = .ok r → r.side = specBias s) ∧
    (tokensAt s .M15 = [] → biasOf s = .ok .LONG) := by
  constructor
  · intro r h
    obtain ⟨tok, q, side, t, hsel, hq, hb, hc, hr⟩ := analyze_ok_inv h
    subst hr
    simpa using hb.symm.trans (biasOf_of_wf hwf)
  · intro h15
    rw [biasOf_of_wf hwf]
    simp [specBias, h15]

/-- Witness for C6 on a concrete well-formed session with 15M data. -/
theorem rec_side_is_specBias_witness :
    (Session.wf ⟨some ⟨[("200.5").data], []⟩,
        some ⟨[("100.5").data, ("102.5").data], []⟩, none, none, none⟩ = true) ∧
    ((∀ r : Rec, analyze_screenshots ⟨some ⟨[("200.5").data], []⟩,
        some ⟨[("100.5").data, ("102.5").data], []⟩, none, none, none⟩ = .ok r →
      r.side = specBias ⟨some ⟨[("200.5").data], []⟩,
        some ⟨[("100.5").data, ("102.5").data], []⟩, none, none, none⟩) ∧
    (tokensAt ⟨some ⟨[("200.5").data], []⟩,
        some ⟨[("100.5").data, ("102.5").data], []⟩, none, none, none⟩ .M15 = [] →
      biasOf ⟨some ⟨[("200.5").data], []⟩,
        some ⟨[("100.5").data, ("102.5").data], []⟩, none, none, none⟩ = .ok .LONG)) :=
  ⟨by decide, rec_side_is_specBias _ (by decide)⟩

/-! ### C2: entry-price selection and the no-price failure -/

/-- Spec-side entry selection: scan the priority order for the first
timeframe with at least one token and take its last token's value. -/
def specEntry (s : Session) : Option ℚ :=
  (Timeframe.priority.find? (fun tf => !(tokensAt s tf).isEmpty)).bind
    (fun tf => ((tokensAt s tf).getLast?).bind pyFloat?)

theorem entryScan_eq_find? (s : Session) (l : List Timeframe) :
    entryScan s l = (l.find? (fun tf => !(tokensAt s tf).isEmpty)).bind
      (fun tf => (tokensAt s tf).getLast?) := by
  induction l with
  | nil => rfl
  | cons tf rest ih =>
    unfold entryScan
    by_cases he : (tokensAt s tf).isEmpty
    · rw [if_pos he, ih, List.find?_cons_of_neg _ (by simp [he])]
    · rw [if_neg he, List.find?_cons_of_pos _ (by simp [he])]
      rfl

theorem specEntry_eq (s : Session) : specEntry s = (selectEntryTok s).bind pyFloat? := by
  unfold specEntry selectEntryTok
  rw [entryScan_eq_find?]
  cases hf : Timeframe.priority.find? (fun tf => !(tokensAt s tf).isEmpty) with
  | none => rfl
  | some tf => rfl

/-- C2: on a well-formed session the analysis fails with the no-price
outcome exactly when no timeframe has any token, and whenever the spec-side
entry selection yields a value, a successful recommendation reports exactly
that value as the entry price. -/
theorem entry_selection_spec (s : Session) (hwf : s.wf = true) :
    (analyze_screenshots s = .error .noPriceFound ↔ ∀ tf, tokensAt s tf = []) ∧
    (∀ (q : ℚ) (r : Rec), specEntry s = some q → analyze_screenshots s = .ok r →
      r.entry = ((q : ℚ) : ℝ)) := by
  constructor
  · constructor
    · intro h
      by_contra hne
      push_neg at hne
      obtain ⟨tf0, htf0⟩ := hne
      have hselne : selectEntryTok s ≠ none := by
        intro hn
        exact htf0 (entryScan_none hn tf0 (by cases tf0 <;> simp [Timeframe.priority]))
      obtain ⟨tok, hsome⟩ := Option.ne_none_iff_exists'.mp hselne
      obtain ⟨tf, _, hmem⟩ := entryScan_some hsome
      obtain ⟨q, hq⟩ := Option.isSome_iff_exists.mp (wf_tokensAt hwf tf tok hmem)
      unfold analyze_screenshots at h
      rw [hsome] at h
      dsimp only at h
      rw [hq] at h
      dsimp only at h
      rw [biasOf_of_wf hwf] at h
      dsimp only at h
      cases hc : compute_sl_tp_size (K := ℝ) ((q : ℚ) : ℝ) (atrOf s) (specBias s) 10000 with
      | error e => rw [hc] at h; simp at h
      | ok t => rw [hc] at h; simp at h
    · intro hall
      have hsel : selectEntryTok s = none := by
        unfold selectEntryTok
        rw [entryScan_eq_find?, List.find?_eq_none.mpr (fun tf _ => by simp [hall tf])]
        rfl
      unfold analyze_screenshots
      rw [hsel]
  · intro q r hq hok
    obtain ⟨tok, q', side, t, hsel, hq', hb, hc, hr⟩ := analyze_ok_inv hok
    subst hr
    have hspec : specEntry s = some q' := by
      rw [specEntry_eq, hsel]
      exact hq'
    rw [hspec] at hq
    have hqq : q' = q := by simpa using hq
    simp [hqq]

/-- Witness for C2 on a concrete well-formed session. -/
theorem entry_selection_spec_witness :
    (Session.wf ⟨some ⟨[("123.4").data], []⟩, none, none, none, none⟩ = true) ∧
    ((analyze_screenshots ⟨some ⟨[("123.4").data], []⟩, none, none, none, none⟩ =
        .error .noPriceFound ↔
      ∀ tf, tokensAt ⟨some ⟨[("123.4").data], []⟩, none, none, none, none⟩ tf = []) ∧
    (∀ (q : ℚ) (r : Rec),
      specEntry ⟨some ⟨[("123.4").data], []⟩, none, none, none, none⟩ = some q →
      analyze_screenshots ⟨some ⟨[("123.4").data], []⟩, none, none, none, none⟩ = .ok r →
      r.entry = ((q : ℚ) : ℝ))) :=
  ⟨by decide, entry_selection_spec _ (by decide)⟩

/-! ### C5: the volatility proxy -/

/-- Spec-side collected values: for each timeframe in turn, the values of
the tokens that parse (unparseable tokens silently discarded), concatenated
across all timeframes present. -/
def specVals (s : Session) : List ℚ :=
  (Timeframe.priority.map (fun tf => (tokensAt s tf).filterMap pyFloat?)).flatten

/-- Spec-side population variance, in mean-of-squares form. -/
def specVar (xs : List ℚ) : ℚ :=
  (xs.map (fun x => x ^ 2)).sum / xs.length - (xs.sum / xs.length) ^ 2

/-- Spec-side volatility proxy: population standard deviation of the
collected values when at least two were collected, else the default 1. -/
noncomputable def specVolProxy (s : Session) : ℝ :=
  if 2 ≤ (specVals s).length then Real.sqrt ((specVar (specVals s) : ℚ) : ℝ) else 1

theorem sum_sq_dev (xs : List ℚ) (c : ℚ) :
    (xs.map (fun x => (x - c) ^ 2)).sum =
      (xs.map (fun x => x ^ 2)).sum - 2 * c * xs.sum + xs.length * c ^ 2 := by
  induction xs with
  | nil => simp
  | cons b l ih =>
    simp only [List.map_cons, List.sum_cons, ih, List.length_cons]
    push_cast
    ring

theorem pvarQ_eq_specVar (xs : List ℚ) : pvarQ xs = specVar xs := by
  rcases xs with _ | ⟨a, l⟩
  · simp [pvarQ, specVar, meanQ]
  · have hn0 : (((a :: l).length : ℕ) : ℚ) ≠ 0 := by
      have : (0 : ℚ) < (((a :: l).length : ℕ) : ℚ) := by
        exact_mod_cast Nat.succ_pos l.length
      exact ne_of_gt this
    rw [pvarQ, specVar, sum_sq_dev _ (meanQ (a :: l)), meanQ]
    field_simp
    ring

/-- C5: the volatility proxy used by the engine is exactly the spec's:
collect every token of every stored observation, discard those that fail to
parse; with at least two values it is their population standard deviation,
otherwise exactly 1. -/
theorem atrOf_eq_specVolProxy (s : Session) : atrOf s = specVolProxy s := by
  have hvals : collectNums s = specVals s := by
    unfold collectNums specVals
    exact List.filterMap_flatten pyFloat? _
  unfold atrOf specVolProxy npStd
  rw [hvals, pvarQ_eq_specVar]

/-! ### C1: analyze-trigger lifecycle -/

/-- C1: on an analyze trigger for a user with a stored session, engine
success emits the recommendation and clears exactly that user's session (so
an immediately following analyze trigger returns the no-data outcome), and
engine failure emits the error and leaves the store exactly unchanged. -/
theorem analyze_cmd_lifecycle (st : Store) (u : ℕ) (s : Session) (hs : st u = some s) :
    (∀ r, analyze_screenshots s = .ok r →
      analyze_cmd st u = ((fun v => if v = u then none else st v), .recommendation r) ∧
      (analyze_cmd (analyze_cmd st u).1 u).2 = .noData) ∧
    (∀ e, analyze_screenshots s = .error e →
      analyze_cmd st u = (st, .analysisError e)) := by
  constructor
  · intro r hr
    have h1 : analyze_cmd st u = ((fun v => if v = u then none else st v), .recommendation r) := by
      unfold analyze_cmd
      rw [hs]
      dsimp only
      rw [hr]
    refine ⟨h1, ?_⟩
    rw [h1]
    unfold analyze_cmd
    simp
  · intro e he
    unfold analyze_cmd
    rw [hs]
    dsimp only
    rw [he]

/-- Witness for C1 at a concrete one-user store. -/
theorem analyze_cmd_lifecycle_witness :
    ((fun v => if v = 7 then some Session.empty else none) : Store) 7 = some Session.empty ∧
    ((∀ r, analyze_screenshots Session.empty = .ok r →
      analyze_cmd (fun v => if v = 7 then some Session.empty else none) 7 =
        ((fun v => if v = 7 then none else
          (fun w => if w = 7 then some Session.empty else none) v), .recommendation r) ∧
      (analyze_cmd (analyze_cmd (fun v => if v = 7 then some Session.empty else none) 7).1 7).2 =
        .noData) ∧
    (∀ e, analyze_screenshots Session.empty = .error e →
      analyze_cmd (fun v => if v = 7 then some Session.empty else none) 7 =
        ((fun v => if v = 7 then some Session.empty else none), .analysisError e))) :=
  ⟨rfl, analyze_cmd_lifecycle (fun v => if v = 7 then some Session.empty else none) 7
    Session.empty rfl⟩

/-! ### C8: the numeric extractor -/

/-- `ms` occur in `t` as disjoint substrings, in order of appearance. -/
def chunksIn : List Char → List (List Char) → Prop
  | _, [] => True
  | t, m :: ms => ∃ pre post, t = pre ++ m ++ post ∧ chunksIn post ms

/-- Some substring of `t` matches the price pattern. -/
def hasPriceSub (t : List Char) : Prop :=
  ∃ pre m post, t = pre ++ m ++ post ∧ matchesPrice m = true

theorem chunksIn_cons_left (c : Char) {t : List Char} {ms : List (List Char)}
    (h : chunksIn t ms) : chunksIn (c :: t) ms := by
  cases ms with
  | nil => trivial
  | cons m ms =>
    obtain ⟨pre, post, heq, hrest⟩ := h
    exact ⟨c :: pre, post, by simp [heq], hrest⟩

theorem takeWhile_all_append {p : Char → Bool} {a : List Char} {x : Char} {r : List Char}
    (ha : ∀ c ∈ a, p c = true) (hx : p x = false) :
    (a ++ x :: r).takeWhile p = a := by
  induction a with
  | nil => simp [List.takeWhile_cons, hx]
  | cons c a ih =>
    have hc : p c = true := ha c (by simp)
    simp [List.takeWhile_cons, hc, ih (fun d hd => ha d (by simp [hd]))]

theorem takeWhile_all_front {p : Char → Bool} {b r : List Char}
    (hb : ∀ c ∈ b, p c = true) :
    (b ++ r).takeWhile p = b ++ r.takeWhile p := by
  induction b with
  | nil => simp
  | cons c b ih =>
    simp [List.takeWhile_cons, hb c (by simp), ih (fun d hd => hb d (by simp [hd]))]

/-- A token matches the price pattern exactly when it splits as 3-5 digits,
a dot, and 1-4 digits. -/
theorem matchesPrice_iff {m : List Char} : matchesPrice m = true ↔
    ∃ a b, m = a ++ '.' :: b ∧ (∀ c ∈ a, c.isDigit = true) ∧
      3 ≤ a.length ∧ a.length ≤ 5 ∧
      (∀ c ∈ b, c.isDigit = true) ∧ 1 ≤ b.length ∧ b.length ≤ 4 := by
  unfold matchesPrice leadingDigits
  constructor
  · intro h
    simp only [Bool.and_eq_true, decide_eq_true_eq, Bool.not_eq_true',
      List.all_eq_true] at h
    obtain ⟨⟨⟨⟨⟨h3, h5⟩, hdot⟩, hne⟩, hdig⟩, h4⟩ := h
    refine ⟨m.takeWhile Char.isDigit, (m.drop (m.takeWhile Char.isDigit).length).tail,
      ?_, fun c hc => List.mem_takeWhile_imp hc, h3, h5, hdig, ?_, h4⟩
    · conv_lhs => rw [← List.take_append_drop (m.takeWhile Char.isDigit).length m]
      rw [← List.prefix_iff_eq_take.mp ( List.takeWhile_prefix Char.isDigit)]
      cases hr : m.drop (m.takeWhile Char.isDigit).length with
      | nil => rw [hr] at hdot; simp at hdot
      | cons x fr =>
          rw [hr] at hdot
          simp only [List.head?_cons, Option.some.injEq] at hdot
          rw [hdot]
          rfl
    · cases hr : (m.drop (m.takeWhile Char.isDigit).length).tail with
      | nil => rw [hr] at hne; simp at hne
      | cons x fr => simp
  · rintro ⟨a, b, rfl, hadig, h3, h5, hbdig, hb1, hb4⟩
    have hld : (a ++ '.' :: b).takeWhile Char.isDigit = a :=
      takeWhile_all_append hadig (by decide)
    rw [hld, List.drop_left]
    simp only [Bool.and_eq_true, decide_eq_true_eq, Bool.not_eq_true',
      List.all_eq_true]
    refine ⟨⟨⟨⟨⟨h3, h5⟩, rfl⟩, ?_⟩, hbdig⟩, hb4⟩
    cases b with
    | nil => simp at hb1
    | cons x fr => simp

/-- A successful match is the price pattern. -/
theorem matchLenAt_some_matches {s : List Char} {n : ℕ} (h : matchLenAt s = some n) :
    matchesPrice (s.take n) = true := by
  unfold matchLenAt at h
  split at h
  case isFalse => exact absurd h (by simp)
  case isTrue hd =>
    split at h
    case isFalse => exact absurd h (by simp)
    case isTrue hdot =>
      split at h
      case isFalse => exact absurd h (by simp)
      case isTrue hj =>
        simp only [Option.some.injEq] at h
        subst h
        obtain ⟨fr, hfr⟩ : ∃ fr, s.drop (leadingDigits s) = '.' :: fr := by
          cases hr : s.drop (leadingDigits s) with
          | nil => rw [hr] at hdot; simp at hdot
          | cons x fr =>
              rw [hr] at hdot
              simp only [List.head?_cons, Option.some.injEq] at hdot
              exact ⟨fr, by rw [hdot]⟩
        have hj' : 1 ≤ leadingDigits fr := by
          rw [hfr] at hj
          simpa using hj
        have hmin : min (leadingDigits (s.drop (leadingDigits s)).tail) 4 =
            min (leadingDigits fr) 4 := by rw [hfr]; simp
        rw [hmin]
        have hsplit : s = s.takeWhile Char.isDigit ++ '.' :: fr := by
          conv_lhs => rw [← List.take_append_drop (s.takeWhile Char.isDigit).length s]
          rw [← List.prefix_iff_eq_take.mp ( List.takeWhile_prefix Char.isDigit),
            show List.drop (s.takeWhile Char.isDigit).length s = '.' :: fr from hfr]
        set a := s.takeWhile Char.isDigit with ha
        have hlda : leadingDigits s = a.length := rfl
        rw [hlda] at hd ⊢
        rw [show a.length + 1 + min (leadingDigits fr) 4 =
          a.length + (1 + min (leadingDigits fr) 4) from by omega]
        conv_lhs => rw [hsplit]
        rw [List.take_append,
          show 1 + min (leadingDigits fr) 4 = min (leadingDigits fr) 4 + 1 from by omega,
          List.take_succ_cons]
        apply matchesPrice_iff.mpr
        refine ⟨a, fr.take (min (leadingDigits fr) 4),
          rfl, ?_, hd.1, hd.2, ?_, ?_, ?_⟩
        · intro c hc
          rw [ha] at hc
          exact List.mem_takeWhile_imp hc
        · intro c hc
          have hfrlen : min (leadingDigits fr) 4 ≤ (fr.takeWhile Char.isDigit).length := by
            unfold leadingDigits
            omega
          have hsub : ∀ k ≤ (fr.takeWhile Char.isDigit).length,
              fr.take k = (fr.takeWhile Char.isDigit).take k := by
            intro k hk
            conv_lhs => rw [← List.takeWhile_append_dropWhile Char.isDigit fr]
            exact List.take_append_of_le_length hk
          rw [hsub _ hfrlen] at hc
          exact List.mem_takeWhile_imp (List.take_subset _ _ hc)
        · have hlen : (fr.take (min (leadingDigits fr) 4)).length =
              min (min (leadingDigits fr) 4) fr.length := List.length_take _ _
          have hle : leadingDigits fr ≤ fr.length :=
            ( List.takeWhile_prefix Char.isDigit).length_le
          rw [hlen]
          omega
        · have hlen : (fr.take (min (leadingDigits fr) 4)).length =
              min (min (leadingDigits fr) 4) fr.length := List.length_take _ _
          rw [hlen]
          omega

/-- A pattern prefix always makes `matchLenAt` succeed. -/
theorem matchLenAt_of_prefix {m : List Char} (post : List Char)
    (h : matchesPrice m = true) : ∃ n, matchLenAt (m ++ post) = some n := by
  obtain ⟨a, b, rfl, hadig, h3, h5, hbdig, hb1, hb4⟩ := matchesPrice_iff.mp h
  have hs : (a ++ '.' :: b) ++ post = a ++ '.' :: (b ++ post) := by simp
  rw [hs]
  have hld : leadingDigits (a ++ '.' :: (b ++ post)) = a.length := by
    unfold leadingDigits
    rw [takeWhile_all_append hadig (by decide)]
  unfold matchLenAt
  rw [hld, List.drop_left]
  rw [if_pos ⟨h3, h5⟩,
    if_pos (show ('.' :: (b ++ post)).head? = some '.' from rfl)]
  have hjb : 1 ≤ leadingDigits (('.' :: (b ++ post)).tail) := by
    simp only [List.tail_cons]
    unfold leadingDigits
    rw [takeWhile_all_front hbdig]
    simp only [List.length_append]
    omega
  rw [if_pos hjb]
  exact ⟨_, rfl⟩

/-- Soundness and completeness of the scan, by strong induction on the
fuel/length. -/
theorem findallPrice_sound : ∀ (N : ℕ) (t : List Char), t.length ≤ N →
    (∀ m ∈ findallPrice t, matchesPrice m = true) ∧
    chunksIn t (findallPrice t) ∧
    (findallPrice t = [] ↔ ¬ hasPriceSub t) := by
  have hnil : (∀ m ∈ findallPrice [], matchesPrice m = true) ∧
      chunksIn ([] : List Char) (findallPrice []) ∧
      (findallPrice [] = [] ↔ ¬ hasPriceSub ([] : List Char)) := by
    refine ⟨by simp [findallPrice, findallAux], trivial, ?_⟩
    simp only [findallPrice, findallAux, true_iff, List.length_nil]
    rintro ⟨pre, m, post, heq, hm⟩
    have : m = [] := by
      rcases List.append_eq_nil.mp (List.append_eq_nil.mp heq.symm).1 with ⟨-, h2⟩
      exact h2
    subst this
    exact absurd hm (by decide)
  intro N
  induction N with
  | zero =>
    intro t ht
    have : t = [] := by
      cases t with
      | nil => rfl
      | cons c cs => simp at ht
    subst this
    exact hnil
  | succ N ih =>
    intro t ht
    cases t with
    | nil => exact hnil
    | cons c cs =>
      rw [findallPrice_cons]
      cases hm : matchLenAt (c :: cs) with
      | none =>
        dsimp only
        obtain ⟨ih1, ih2, ih3⟩ := ih cs (by simp only [List.length_cons] at ht; omega)
        have hsub_iff : hasPriceSub (c :: cs) ↔ hasPriceSub cs := by
          constructor
          · rintro ⟨pre, m, post, heq, hmp⟩
            cases pre with
            | nil =>
                exfalso
                simp only [List.nil_append] at heq
                obtain ⟨n, hn⟩ := matchLenAt_of_prefix post hmp
                rw [← heq] at hn
                rw [hm] at hn
                exact absurd hn (by simp)
            | cons c' pre' =>
                have hcs : cs = pre' ++ m ++ post := by
                  have := heq
                  simp only [List.cons_append, List.cons.injEq] at this
                  exact this.2
                exact ⟨pre', m, post, hcs, hmp⟩
          · rintro ⟨pre, m, post, heq, hmp⟩
            exact ⟨c :: pre, m, post, by simp [heq], hmp⟩
        exact ⟨ih1, chunksIn_cons_left c ih2, by rw [ih3]; exact not_congr hsub_iff.symm⟩
      | some n =>
        dsimp only
        have hmp := matchLenAt_some_matches hm
        have hlen : ((c :: cs).drop n).length ≤ N := by
          have hn1 := matchLenAt_pos hm
          simp only [List.length_drop, List.length_cons]
          simp only [List.length_cons] at ht
          omega
        obtain ⟨ih1, ih2, ih3⟩ := ih ((c :: cs).drop n) hlen
        refine ⟨?_, ?_, ?_⟩
        · intro m hmem
          rcases List.mem_cons.mp hmem with rfl | hmem'
          · exact hmp
          · exact ih1 m hmem'
        · exact ⟨[], (c :: cs).drop n, by simp [List.take_append_drop], ih2⟩
        · constructor
          · intro habs
            exact absurd habs (by simp)
          · intro hno
            exact absurd ⟨[], (c :: cs).take n, (c :: cs).drop n,
              by simp [List.take_append_drop], hmp⟩ hno

/-! The full characterization: the returned list is exactly the
left-to-right sequence of non-overlapping greedy pattern matches, stated
against the spec-side pattern only and proved unique. -/

/-- A match starts here: some prefix of `u` matches the price pattern. -/
def startsPrice (u : List Char) : Prop :=
  ∃ m post, u = m ++ post ∧ matchesPrice m = true

/-- `m` is the longest pattern match starting at the head of `u` (the
regex's greedy match at this position). -/
def greedyMatchAt (u m : List Char) : Prop :=
  (∃ post, u = m ++ post) ∧ matchesPrice m = true ∧
  ∀ m' post', u = m' ++ post' → matchesPrice m' = true → m'.length ≤ m.length

/-- Spec-side characterization of the whole scan: `ms` is the left-to-right
sequence of non-overlapping matches of `t` — each listed element is the
greedy match at its position, no match starts at any earlier position of the
remaining text, matches are consumed (the scan resumes after each match),
and no substring of the text after the last match matches the pattern. -/
def FindallSpec : List Char → List (List Char) → Prop
  | t, [] => ¬ hasPriceSub t
  | t, m :: ms => ∃ pre post, t = pre ++ (m ++ post) ∧
      greedyMatchAt (m ++ post) m ∧
      (∀ i, i < pre.length → ¬ startsPrice (pre.drop i ++ (m ++ post))) ∧
      FindallSpec post ms

theorem not_hasPriceSub_nil : ¬ hasPriceSub ([] : List Char) := by
  rintro ⟨pre, m, post, heq, hm⟩
  have h0 := heq.symm
  rw [List.append_eq_nil, List.append_eq_nil] at h0
  obtain ⟨⟨-, hm0⟩, -⟩ := h0
  subst hm0
  exact absurd hm (by decide)

theorem matchesPrice_pos {m : List Char} (h : matchesPrice m = true) : 0 < m.length := by
  obtain ⟨a, b, rfl, -, h3, -, -, hb1, -⟩ := matchesPrice_iff.mp h
  simp only [List.length_append, List.length_cons]
  omega

theorem matchLenAt_none_not_starts {s : List Char} (h : matchLenAt s = none) :
    ¬ startsPrice s := by
  rintro ⟨m, post, rfl, hm⟩
  obtain ⟨n, hn⟩ := matchLenAt_of_prefix post hm
  rw [h] at hn
  exact absurd hn (by simp)

/-- A successful `matchLenAt` is the greedy match: no longer prefix of the
text matches the pattern. -/
theorem matchLenAt_greedy {s : List Char} {n : ℕ} (h : matchLenAt s = some n) :
    greedyMatchAt s (s.take n) := by
  refine ⟨⟨s.drop n, (List.take_append_drop n s).symm⟩, matchLenAt_some_matches h, ?_⟩
  intro m' post' heq hm'
  obtain ⟨a', b', hdecomp, hadig, h3, h5, hbdig, hb1, hb4⟩ := matchesPrice_iff.mp hm'
  subst hdecomp
  have hs : s = a' ++ '.' :: (b' ++ post') := by rw [heq]; simp
  subst hs
  have hld : leadingDigits (a' ++ '.' :: (b' ++ post')) = a'.length := by
    unfold leadingDigits
    rw [takeWhile_all_append hadig (by decide)]
  unfold matchLenAt at h
  rw [hld, List.drop_left] at h
  rw [if_pos ⟨h3, h5⟩,
    if_pos (show ('.' :: (b' ++ post')).head? = some '.' from rfl)] at h
  have hjge : b'.length ≤ leadingDigits (('.' :: (b' ++ post')).tail) := by
    simp only [List.tail_cons]
    unfold leadingDigits
    rw [takeWhile_all_front hbdig]
    simp only [List.length_append]
    omega
  rw [if_pos (by omega : 1 ≤ leadingDigits (('.' :: (b' ++ post')).tail))] at h
  simp only [Option.some.injEq] at h
  have hlt : ((a' ++ '.' :: (b' ++ post')).take n).length =
      min n (a' ++ '.' :: (b' ++ post')).length := List.length_take _ _
  rw [hlt]
  simp only [List.length_append, List.length_cons]
  omega

/-- Prepending a character at which no match starts preserves the scan
characterization. -/
theorem FindallSpec_cons_of_none {c : Char} {cs : List Char} {ms : List (List Char)}
    (hns : ¬ startsPrice (c :: cs)) (h : FindallSpec cs ms) :
    FindallSpec (c :: cs) ms := by
  cases ms with
  | nil =>
    have h' : ¬ hasPriceSub cs := h
    show ¬ hasPriceSub (c :: cs)
    rintro ⟨pre, m, post, heq, hm⟩
    cases pre with
    | nil => exact hns ⟨m, post, by simpa using heq, hm⟩
    | cons c' pre' =>
      have hcs : cs = pre' ++ m ++ post := by
        have h1 := heq
        simp only [List.cons_append, List.cons.injEq] at h1
        exact h1.2
      exact h' ⟨pre', m, post, hcs, hm⟩
  | cons m ms =>
    obtain ⟨pre, post, heq, hg, hgap, hrest⟩ := h
    refine ⟨c :: pre, post, by simp [heq], hg, ?_, hrest⟩
    intro i hi
    cases i with
    | zero =>
      simp only [List.drop_zero]
      have hne : (c :: pre) ++ (m ++ post) = c :: cs := by simp [heq]
      rw [hne]
      exact hns
    | succ i' =>
      simp only [List.drop_succ_cons]
      exact hgap i' (by simp only [List.length_cons] at hi; omega)

/-- Existence: the scanner's output satisfies the characterization. -/
theorem findallPrice_isFindallSpec : ∀ (N : ℕ) (t : List Char), t.length ≤ N →
    FindallSpec t (findallPrice t) := by
  intro N
  induction N with
  | zero =>
    intro t ht
    have ht0 : t = [] := by
      cases t with
      | nil => rfl
      | cons c cs => simp at ht
    subst ht0
    exact not_hasPriceSub_nil
  | succ N ih =>
    intro t ht
    cases t with
    | nil => exact not_hasPriceSub_nil
    | cons c cs =>
      rw [findallPrice_cons]
      cases hm : matchLenAt (c :: cs) with
      | none =>
        dsimp only
        exact FindallSpec_cons_of_none (matchLenAt_none_not_starts hm)
          (ih cs (by simp only [List.length_cons] at ht; omega))
      | some n =>
        dsimp only
        refine ⟨[], (c :: cs).drop n, by simp [List.take_append_drop], ?_,
          by simp, ih _ ?_⟩
        · rw [List.take_append_drop]
          exact matchLenAt_greedy hm
        · have hn1 := matchLenAt_pos hm
          simp only [List.length_drop, List.length_cons]
          simp only [List.length_cons] at ht
          omega

/-- Uniqueness: at most one list satisfies the characterization, so it pins
the output exactly. -/
theorem findallSpec_unique : ∀ (N : ℕ) (t : List Char), t.length ≤ N →
    ∀ ms₁ ms₂, FindallSpec t ms₁ → FindallSpec t ms₂ → ms₁ = ms₂ := by
  intro N
  induction N with
  | zero =>
    intro t ht ms₁ ms₂ h1 h2
    have ht0 : t = [] := by
      cases t with
      | nil => rfl
      | cons c cs => simp at ht
    subst ht0
    have hnil : ∀ ms, FindallSpec [] ms → ms = [] := by
      intro ms hms
      cases ms with
      | nil => rfl
      | cons m ms =>
        obtain ⟨pre, post, heq, hg, -, -⟩ := hms
        have hpos := matchesPrice_pos hg.2.1
        have hlen := congrArg List.length heq
        simp only [List.length_nil, List.length_append] at hlen
        omega
    rw [hnil ms₁ h1, hnil ms₂ h2]
  | succ N ih =>
    intro t ht ms₁ ms₂ h1 h2
    cases ms₁ with
    | nil =>
      cases ms₂ with
      | nil => rfl
      | cons m2 ms2 =>
        obtain ⟨pre2, post2, he2, hg2, -, -⟩ := h2
        exact absurd ⟨pre2, m2, post2, by rw [he2, List.append_assoc], hg2.2.1⟩ h1
    | cons m1 ms1 =>
      cases ms₂ with
      | nil =>
        obtain ⟨pre1, post1, he1, hg1, -, -⟩ := h1
        exact absurd ⟨pre1, m1, post1, by rw [he1, List.append_assoc], hg1.2.1⟩ h2
      | cons m2 ms2 =>
        obtain ⟨pre1, post1, he1, hg1, hgap1, hr1⟩ := h1
        obtain ⟨pre2, post2, he2, hg2, hgap2, hr2⟩ := h2
        have key : ∀ (preA postA mA preB postB mB : List Char),
            t = preA ++ (mA ++ postA) → t = preB ++ (mB ++ postB) →
            matchesPrice mA = true →
            (∀ i, i < preB.length → ¬ startsPrice (preB.drop i ++ (mB ++ postB))) →
            ¬ preA.length < preB.length := by
          intro preA postA mA preB postB mB heA heB hmA hgapB hlt
          apply hgapB preA.length hlt
          have hdropB : t.drop preA.length = preB.drop preA.length ++ (mB ++ postB) := by
            rw [heB]
            exact List.drop_append_of_le_length (le_of_lt hlt)
          have hdropA : t.drop preA.length = mA ++ postA := by
            rw [heA, List.drop_append_of_le_length le_rfl]
            simp
          rw [← hdropB, hdropA]
          exact ⟨mA, postA, rfl, hmA⟩
        have h12 := key pre1 post1 m1 pre2 post2 m2 he1 he2 hg1.2.1 hgap2
        have h21 := key pre2 post2 m2 pre1 post1 m1 he2 he1 hg2.2.1 hgap1
        have hlenEq : pre1.length = pre2.length := by omega
        obtain ⟨hpre, hsuf⟩ :=
          List.append_inj (he1.symm.trans he2) hlenEq
        have hmlen : m1.length = m2.length :=
          le_antisymm (hg2.2.2 m1 post1 hsuf.symm hg1.2.1)
            (hg1.2.2 m2 post2 hsuf hg2.2.1)
        obtain ⟨hm, hpost⟩ := List.append_inj hsuf hmlen
        subst hm
        subst hpost
        have hplen : post1.length ≤ N := by
          have hmp := matchesPrice_pos hg1.2.1
          have hlen := congrArg List.length he1
          simp only [List.length_append] at hlen
          omega
        rw [ih post1 hplen ms1 ms2 hr1 hr2]

/-- C8: the extractor returns the original text unchanged together with
exactly the ordered sequence of non-overlapping pattern matches: every
returned substring matches the decimal-price pattern (3-5 digits, a dot,
1-4 digits), the substrings occur disjointly in order of appearance, the
output satisfies the left-to-right greedy matching characterization
`FindallSpec` and is the unique list satisfying it (so no match is skipped),
it is total, empty text yields the empty sequence, and the sequence is empty
exactly when no substring of the text matches the pattern. -/
theorem extract_prices_spec (t : Tok) :
    (extract_prices_from_text t).raw = t ∧
    (∀ m ∈ (extract_prices_from_text t).numbers, matchesPrice m = true) ∧
    chunksIn t (extract_prices_from_text t).numbers ∧
    FindallSpec t (extract_prices_from_text t).numbers ∧
    (∀ ms, FindallSpec t ms → ms = (extract_prices_from_text t).numbers) ∧
    (t = [] → (extract_prices_from_text t).numbers = []) ∧
    ((extract_prices_from_text t).numbers = [] ↔ ¬ hasPriceSub t) := by
  obtain ⟨h1, h2, h3⟩ := findallPrice_sound t.length t le_rfl
  have hspec := findallPrice_isFindallSpec t.length t le_rfl
  exact ⟨rfl, h1, h2, hspec,
    fun ms hms => findallSpec_unique t.length t le_rfl ms _ hms hspec,
    fun h => by subst h; rfl, h3⟩

/-- Witness for C8 on a concrete OCR-like text. -/
theorem extract_prices_spec_witness :
    (extract_prices_from_text (("xau 1925.50 buy").data)).raw = (("xau 1925.50 buy").data) ∧
    (∀ m ∈ (extract_prices_from_text (("xau 1925.50 buy").data)).numbers,
      matchesPrice m = true) ∧
    chunksIn (("xau 1925.50 buy").data)
      (extract_prices_from_text (("xau 1925.50 buy").data)).numbers ∧
    FindallSpec (("xau 1925.50 buy").data)
      (extract_prices_from_text (("xau 1925.50 buy").data)).numbers ∧
    (∀ ms, FindallSpec (("xau 1925.50 buy").data) ms →
      ms = (extract_prices_from_text (("xau 1925.50 buy").data)).numbers) ∧
    ((("xau 1925.50 buy").data : List Char) = [] →
      (extract_prices_from_text (("xau 1925.50 buy").data)).numbers = []) ∧
    ((extract_prices_from_text (("xau 1925.50 buy").data)).numbers = [] ↔
      ¬ hasPriceSub (("xau 1925.50 buy").data)) :=
  extract_prices_spec (("xau 1925.50 buy").data)

end Sniperbot
